import Mathlib

/-!
Verification of the feature-processing and project-aggregation pipeline of
`src/components/PaddockMap.vue` (the `loam` repository).

The pipeline consists of four derived values computed from the incoming
GeoJSON `FeatureCollection`:

* `project_ids`     : `Array.from(new Set(features.map(f => f.properties?.Project__Name).filter(v => v !== null)))`
* `project_colours` : `Object.fromEntries(project_ids.map((p, i) => [p, colours[i % colours.length]]))`
* `project_summary` : one record per entry of `project_ids` (name, colour, count, totalArea, owner)
* `processFeatures` : enriches every feature with `fillColor` and `description`

The embedding models the JavaScript value stored under the `Project__Name`
property as a three-way value (`undefined` / `null` / a string), since the
source distinguishes exactly these cases (`!== null` filtering, truthiness
tests, string interpolation and object-key stringification).
-/

namespace Loam

/-- A JavaScript value read from the `Project__Name` property of a feature:
either the property is absent (or `properties` itself is absent), giving
`undefined`; or it is explicitly `null`; or it is a string. -/
inductive JSVal where
  | undef : JSVal
  | null : JSVal
  | str : String → JSVal
deriving DecidableEq, Repr

/-- Stringification of a JS value when it is used as an object key, as done by
`Object.fromEntries` and by property access `obj[k]`: `undefined` becomes the
string `"undefined"`, `null` becomes `"null"`, a string stays itself. -/
def JSVal.keyStr : JSVal → String
  | .undef => "undefined"
  | .null => "null"
  | .str s => s

/-- JavaScript truthiness of a `Project__Name` value, as tested by
`if (feature.properties?.Project__Name)`: `undefined`, `null` and the empty
string are falsy, every other string is truthy. -/
def JSVal.truthy : JSVal → Bool
  | .undef => false
  | .null => false
  | .str s => !(s == "")

/-- String interpolation of an optional string property, as in
`` `${feature.properties?.name}` ``: an absent value renders as the literal
string `"undefined"`. -/
def jsDisplay : Option String → String
  | none => "undefined"
  | some s => s

/-- String interpolation of an optional numeric property, as in
`` `${feature.properties?.area_acres}` ``: an absent value renders as the
literal string `"undefined"`, a number renders in decimal. -/
def jsDisplayInt : Option Int → String
  | none => "undefined"
  | some n => toString n

/-- A GeoJSON feature as consumed by the component. The recognized properties
`name`, `owner`, `area_acres` and `Project__Name` are modelled explicitly
(`none` meaning the property is absent); `fillColor` and `description` are the
two properties written by `processFeatures` (absent on raw input). The
geometry and any unrecognized properties are never inspected by the pipeline,
so they are modelled by type parameters `γ` (geometry) and `π` (other
properties), carried through unchanged. -/
structure Feature (γ : Type u) (π : Type v) where
  name : Option String
  owner : Option String
  area_acres : Option Int
  Project__Name : JSVal
  fillColor : Option String
  description : Option String
  geometry : γ
  extraProps : π
deriving DecidableEq, Repr

/-- The fixed five-entry palette `colours` of the component. -/
def colours : List String :=
  ["#E6C229", "#F17105", "#D11149", "#6610F2", "#1A8FE3"]

/-- Deduplication keeping the first occurrence of each value in order: the
behaviour of `Array.from(new Set(l))`, whose iteration order is first-insertion
order. `seen` is the set of values already inserted (initially empty); a value
already present is skipped, a new value is appended and recorded. -/
def dedupFirstAux (seen : List JSVal) : List JSVal → List JSVal
  | [] => []
  | x :: xs =>
    if x ∈ seen then dedupFirstAux seen xs
    else x :: dedupFirstAux (x :: seen) xs

/-- `Array.from(new Set(l))` in first-insertion order. -/
def dedupFirst (l : List JSVal) : List JSVal :=
  dedupFirstAux [] l

/-- The component's `project_ids`:
`Array.from(new Set(geoJSON.features.map(f => f.properties?.Project__Name).filter(v => v !== null)))`.
Note the filter removes only `null`, not `undefined`. -/
def project_ids (features : List (Feature γ π)) : List JSVal :=
  dedupFirst ((features.map (fun f => f.Project__Name)).filter
    (fun v => v ≠ JSVal.null))

/-- Lookup in the object built by `Object.fromEntries(entries)`: the last
entry with a given key wins, a missing key yields `undefined` (`none`). -/
def fromEntries : List (String × String) → String → Option String
  | [], _ => none
  | e :: rest, k =>
    match fromEntries rest k with
    | some v => some v
    | none => if e.1 = k then some e.2 else none

/-- The entry list `project_ids.map((project, index) => [project, colours[index % colours.length]])`,
with the running index made explicit (the first element of the list receives
index `i`). Object keys are stringified as JavaScript does. -/
def colourEntriesFrom : Nat → List JSVal → List (String × String)
  | _, [] => []
  | i, p :: ps =>
    (p.keyStr, colours.getD (i % colours.length) "") :: colourEntriesFrom (i + 1) ps

/-- The component's `project_colours` object, as a lookup function from string
keys: `Object.fromEntries(project_ids.map((project, index) => [project, colours[index % colours.length]]))`. -/
def project_colours (features : List (Feature γ π)) : String → Option String :=
  fromEntries (colourEntriesFrom 0 (project_ids features))

/-- One record of the component's `project_summary` array. `colour` and
`owner` are `Option`s because in the source they are object lookups that can
yield `undefined`. -/
structure ProjectSummary where
  name : JSVal
  colour : Option String
  count : Nat
  totalArea : Int
  owner : Option String
deriving DecidableEq, Repr

/-- The component's `project_summary`: for each entry of `project_ids`, filter
the features whose `Project__Name` is strictly equal to it, sum their
`area_acres` (`|| 0` turns an absent value into `0`), and take the owner of
the first matching feature. -/
def project_summary (features : List (Feature γ π)) : List ProjectSummary :=
  (project_ids features).map (fun project_id =>
    let project_features := features.filter (fun f => f.Project__Name = project_id)
    let totalArea : Int :=
      project_features.foldl (fun sum f => sum + f.area_acres.getD 0) 0
    { name := project_id
      colour := project_colours features project_id.keyStr
      count := project_features.length
      totalArea := totalArea
      owner := project_features.head?.bind (fun f => f.owner) })

/-- The `description` HTML string built by `processFeatures` for one feature:
`<strong>${name}</strong><p>Owner: ${owner}<br/>Area: ${area_acres} acres`
followed by the project line when `Project__Name` is truthy, then `</p>`. -/
def mkDescription (f : Feature γ π) : String :=
  "<strong>" ++ jsDisplay f.name ++ "</strong>" ++
    "<p>Owner: " ++ jsDisplay f.owner ++
    "<br/>Area: " ++ jsDisplayInt f.area_acres ++ " acres" ++
    (if f.Project__Name.truthy then "<br/>Project: " ++ f.Project__Name.keyStr else "") ++
    "</p>"

/-- Enrichment of a single feature by `processFeatures`: the spread
`{...feature, properties: {...feature.properties, fillColor, description}}`
keeps every other field and overwrites `fillColor` and `description`.
`fillColor` starts as `'#888888'` and is replaced by the colour-map lookup
when `Project__Name` is truthy (the lookup itself can yield `undefined` for a
map that lacks the key, hence the `Option`). -/
def enrichFeature (project_colours : String → Option String) (f : Feature γ π) :
    Feature γ π :=
  { f with
    fillColor :=
      if f.Project__Name.truthy then project_colours f.Project__Name.keyStr
      else some "#888888"
    description := some (mkDescription f) }

/-- The component's `processFeatures(features, project_colours)`: maps
`enrichFeature` over the collection, producing a new collection of the same
length and order. -/
def processFeatures (features : List (Feature γ π))
    (project_colours : String → Option String) : List (Feature γ π) :=
  features.map (enrichFeature project_colours)

/-- Convenience constructor for a plain input feature (no `fillColor` or
`description` yet, trivial geometry and no extra properties). -/
def mkF (n o : Option String) (a : Option Int) (p : JSVal) : Feature Unit Unit :=
  { name := n, owner := o, area_acres := a, Project__Name := p,
    fillColor := none, description := none, geometry := (), extraProps := () }

/-- The four-feature example collection of the specification:
`[{Project__Name: "A", area_acres: 10, owner: "X"}, {Project__Name: "A", area_acres: 5, owner: "Y"}, {Project__Name: "B", area_acres: 3, owner: "Z"}, {area_acres: 1}]`. -/
def exInput : List (Feature Unit Unit) :=
  [ mkF none (some "X") (some 10) (JSVal.str "A"),
    mkF none (some "Y") (some 5) (JSVal.str "A"),
    mkF none (some "Z") (some 3) (JSVal.str "B"),
    mkF none none (some 1) JSVal.undef ]

/-- Index of the first occurrence of `v` in `l` (equals `l.length` when `v`
is absent); used to state first-appearance order. -/
def firstIdx : List JSVal → JSVal → Nat
  | [], _ => 0
  | x :: xs, v => if x = v then 0 else firstIdx xs v + 1

/-- A one-feature collection whose only feature has no `Project__Name`. -/
def exUndef : List (Feature Unit Unit) := [mkF none none none JSVal.undef]

/-- A one-feature collection whose only feature has `Project__Name` equal to
the empty string (present and non-null, but falsy). -/
def exEmptyStr : List (Feature Unit Unit) := [mkF none none none (JSVal.str "")]

/-- A collection in which one feature is literally named `"undefined"` and a
second feature has no `Project__Name` at all: their object keys collide after
stringification. -/
def exCollide : List (Feature Unit Unit) :=
  [mkF none none none (JSVal.str "undefined"), mkF none none none JSVal.undef]

/-- Stated from the specification's words: a `Project__Name` value that is
present (not `undefined`) and non-null, i.e. an actual string. -/
def isPresentNonNull : JSVal → Bool
  | .str _ => true
  | _ => false

theorem firstIdx_cons_ne {x v : JSVal} (xs : List JSVal) (h : x ≠ v) :
    firstIdx (x :: xs) v = firstIdx xs v + 1 := by
  simp [firstIdx, h]

theorem mem_dedupFirstAux {v : JSVal} :
    ∀ (l seen : List JSVal), v ∈ dedupFirstAux seen l ↔ v ∈ l ∧ v ∉ seen := by
  intro l
  induction l with
  | nil => intro seen; simp [dedupFirstAux]
  | cons x xs ih =>
    intro seen
    by_cases hx : x ∈ seen
    · rw [show dedupFirstAux seen (x :: xs) = dedupFirstAux seen xs by
        simp [dedupFirstAux, hx], ih]
      constructor
      · rintro ⟨hvxs, hvs⟩
        exact ⟨List.mem_cons_of_mem _ hvxs, hvs⟩
      · rintro ⟨hvor, hvs⟩
        rcases List.mem_cons.mp hvor with rfl | hvxs
        · exact absurd hx hvs
        · exact ⟨hvxs, hvs⟩
    · rw [show dedupFirstAux seen (x :: xs) = x :: dedupFirstAux (x :: seen) xs by
        simp [dedupFirstAux, hx]]
      constructor
      · intro hmem
        rcases List.mem_cons.mp hmem with rfl | hmem2
        · exact ⟨List.mem_cons_self v xs, hx⟩
        · obtain ⟨hvxs, hvs⟩ := (ih (x :: seen)).mp hmem2
          exact ⟨List.mem_cons_of_mem _ hvxs,
            fun hv => hvs (List.mem_cons_of_mem _ hv)⟩
      · rintro ⟨hvor, hvs⟩
        rcases List.mem_cons.mp hvor with rfl | hvxs
        · exact List.mem_cons_self v _
        · by_cases hvx : v = x
          · exact hvx ▸ List.mem_cons_self x _
          · refine List.mem_cons_of_mem _ ((ih (x :: seen)).mpr ⟨hvxs, ?_⟩)
            intro hv
            rcases List.mem_cons.mp hv with h1 | h2
            · exact hvx h1
            · exact hvs h2

theorem nodup_dedupFirstAux : ∀ (l seen : List JSVal), (dedupFirstAux seen l).Nodup := by
  intro l
  induction l with
  | nil => intro seen; simp [dedupFirstAux]
  | cons x xs ih =>
    intro seen
    by_cases hx : x ∈ seen
    · simpa only [dedupFirstAux, if_pos hx] using ih seen
    · simp only [dedupFirstAux, if_neg hx, List.nodup_cons]
      refine ⟨fun hmem => ?_, ih (x :: seen)⟩
      exact ((mem_dedupFirstAux xs (x :: seen)).mp hmem).2 (List.mem_cons_self x seen)

theorem pairwise_firstIdx_dedupFirstAux :
    ∀ (l seen : List JSVal),
      (dedupFirstAux seen l).Pairwise (fun v w => firstIdx l v < firstIdx l w) := by
  intro l
  induction l with
  | nil => intro seen; simp [dedupFirstAux]
  | cons x xs ih =>
    intro seen
    by_cases hx : x ∈ seen
    · simp only [dedupFirstAux, if_pos hx]
      refine (ih seen).imp_of_mem (fun {v w} hv hw hlt => ?_)
      have hv2 := (mem_dedupFirstAux xs seen).mp hv
      have hw2 := (mem_dedupFirstAux xs seen).mp hw
      have hxv : x ≠ v := fun he => hv2.2 (he ▸ hx)
      have hxw : x ≠ w := fun he => hw2.2 (he ▸ hx)
      rw [firstIdx_cons_ne xs hxv, firstIdx_cons_ne xs hxw]
      exact Nat.succ_lt_succ hlt
    · simp only [dedupFirstAux, if_neg hx, List.pairwise_cons]
      constructor
      · intro w hw
        have hw2 := (mem_dedupFirstAux xs (x :: seen)).mp hw
        have hxw : x ≠ w := fun he => hw2.2 (he ▸ List.mem_cons_self x seen)
        rw [firstIdx_cons_ne xs hxw]
        simp [firstIdx]
      · refine (ih (x :: seen)).imp_of_mem (fun {v w} hv hw hlt => ?_)
        have hv2 := (mem_dedupFirstAux xs (x :: seen)).mp hv
        have hw2 := (mem_dedupFirstAux xs (x :: seen)).mp hw
        have hxv : x ≠ v := fun he => hv2.2 (he ▸ List.mem_cons_self x seen)
        have hxw : x ≠ w := fun he => hw2.2 (he ▸ List.mem_cons_self x seen)
        rw [firstIdx_cons_ne xs hxv, firstIdx_cons_ne xs hxw]
        exact Nat.succ_lt_succ hlt

theorem mem_dedupFirst {v : JSVal} {l : List JSVal} : v ∈ dedupFirst l ↔ v ∈ l := by
  simp [dedupFirst, mem_dedupFirstAux]

theorem nodup_dedupFirst (l : List JSVal) : (dedupFirst l).Nodup :=
  nodup_dedupFirstAux l []

theorem pairwise_firstIdx_dedupFirst (l : List JSVal) :
    (dedupFirst l).Pairwise (fun v w => firstIdx l v < firstIdx l w) :=
  pairwise_firstIdx_dedupFirstAux l []

/-- Removing elements that fail a predicate does not change the relative
first-appearance order of values that satisfy it. -/
theorem firstIdx_filter_lt {p : JSVal → Bool} {l : List JSVal} {v w : JSVal}
    (hv : v ∈ l) (hpv : p v = true) (hpw : p w = true)
    (h : firstIdx (l.filter p) v < firstIdx (l.filter p) w) :
    firstIdx l v < firstIdx l w := by
  induction l with
  | nil => cases hv
  | cons y t ih =>
    by_cases hpy : p y = true
    · rw [List.filter_cons_of_pos hpy] at h
      by_cases hyv : y = v
      · subst hyv
        have hyw : y ≠ w := by
          rintro rfl
          simp [firstIdx] at h
        rw [firstIdx_cons_ne t hyw]
        simp [firstIdx]
      · have hyw : y ≠ w := by
          rintro rfl
          rw [firstIdx_cons_ne _ hyv] at h
          simp [firstIdx] at h
        rw [firstIdx_cons_ne _ hyv, firstIdx_cons_ne _ hyw] at h
        have hvt : v ∈ t := by
          rcases List.mem_cons.mp hv with rfl | hvt
          · exact absurd rfl hyv
          · exact hvt
        rw [firstIdx_cons_ne t hyv, firstIdx_cons_ne t hyw]
        exact Nat.succ_lt_succ (ih hvt (Nat.lt_of_succ_lt_succ h))
    · have hyv : y ≠ v := fun he => hpy (he ▸ hpv)
      have hyw : y ≠ w := fun he => hpy (he ▸ hpw)
      rw [List.filter_cons_of_neg (by simpa using hpy)] at h
      have hvt : v ∈ t := by
        rcases List.mem_cons.mp hv with rfl | hvt
        · exact absurd rfl hyv
        · exact hvt
      rw [firstIdx_cons_ne t hyv, firstIdx_cons_ne t hyw]
      exact Nat.succ_lt_succ (ih hvt h)

theorem mem_project_ids {fs : List (Feature γ π)} {v : JSVal} :
    v ∈ project_ids fs ↔
      v ≠ JSVal.null ∧ v ∈ fs.map (fun f => f.Project__Name) := by
  simp only [project_ids, mem_dedupFirst, List.mem_filter, decide_eq_true_eq]
  tauto

theorem nodup_project_ids (fs : List (Feature γ π)) : (project_ids fs).Nodup :=
  nodup_dedupFirst _

theorem fromEntries_eq_none {l : List (String × String)} {k : String}
    (h : k ∉ l.map Prod.fst) : fromEntries l k = none := by
  induction l with
  | nil => rfl
  | cons e rest ih =>
    simp only [List.map_cons, List.mem_cons] at h
    push_neg at h
    have hne : ¬ e.1 = k := fun he => h.1 he.symm
    simp [fromEntries, ih h.2, hne]

theorem fromEntries_isSome {l : List (String × String)} {k : String}
    (h : k ∈ l.map Prod.fst) : ∃ v, fromEntries l k = some v := by
  induction l with
  | nil => cases h
  | cons e rest ih =>
    by_cases hr : k ∈ rest.map Prod.fst
    · obtain ⟨w, hw⟩ := ih hr
      exact ⟨w, by simp [fromEntries, hw]⟩
    · have hk : e.1 = k := by
        simp only [List.map_cons, List.mem_cons] at h
        rcases h with h | h
        · exact h.symm
        · exact absurd h hr
      exact ⟨e.2, by simp [fromEntries, fromEntries_eq_none hr, hk]⟩

theorem fromEntries_mem {l : List (String × String)} {k v : String}
    (h : fromEntries l k = some v) : (k, v) ∈ l := by
  induction l with
  | nil => cases h
  | cons e rest ih =>
    obtain ⟨a, b⟩ := e
    simp only [fromEntries] at h
    cases heq : fromEntries rest k with
    | some w =>
      rw [heq] at h
      cases h
      exact List.mem_cons_of_mem _ (ih heq)
    | none =>
      rw [heq] at h
      by_cases hk : a = k
      · rw [if_pos hk] at h
        cases h
        subst hk
        exact List.mem_cons_self _ _
      · rw [if_neg hk] at h
        cases h

theorem fromEntries_append_last {la lb : List (String × String)} {k v : String}
    (h : k ∉ lb.map Prod.fst) :
    fromEntries (la ++ (k, v) :: lb) k = some v := by
  induction la with
  | nil =>
    rw [List.nil_append]
    simp [fromEntries, fromEntries_eq_none h]
  | cons e rest ih =>
    rw [List.cons_append]
    simp [fromEntries, ih]

theorem map_fst_colourEntriesFrom (i : Nat) (ps : List JSVal) :
    (colourEntriesFrom i ps).map Prod.fst = ps.map JSVal.keyStr := by
  induction ps generalizing i with
  | nil => rfl
  | cons p ps ih => simp [colourEntriesFrom, ih]

theorem snd_mem_colours_of_mem_colourEntriesFrom {i : Nat} {ps : List JSVal}
    {e : String × String} (h : e ∈ colourEntriesFrom i ps) : e.2 ∈ colours := by
  induction ps generalizing i with
  | nil => cases h
  | cons p ps ih =>
    rcases List.mem_cons.mp h with rfl | h2
    · have hlt : i % colours.length < colours.length :=
        Nat.mod_lt _ (by simp [colours])
      simp only [List.getD_eq_getElem?_getD, List.getElem?_eq_getElem hlt,
        Option.getD_some]
      exact List.getElem_mem hlt
    · exact ih h2

/-- The last entry with a given stringified key wins in `Object.fromEntries`:
if position `i` of the project list has no later position with the same
stringified key, the colour map sends that key to `colours[(i0 + i) % 5]`
(`i0` being the index of the head of `ps`). -/
theorem fromEntries_colourEntriesFrom (ps : List JSVal) (i0 i : Nat)
    (hi : i < ps.length)
    (hlater : ∀ j (hj : j < ps.length), i < j →
      JSVal.keyStr (ps.get ⟨j, hj⟩) ≠ JSVal.keyStr (ps.get ⟨i, hi⟩)) :
    fromEntries (colourEntriesFrom i0 ps) (JSVal.keyStr (ps.get ⟨i, hi⟩))
      = some (colours.getD ((i0 + i) % colours.length) "") := by
  induction ps generalizing i0 i with
  | nil => exact absurd hi (Nat.not_lt_zero i)
  | cons p ps ih =>
    cases i with
    | zero =>
      have hnot : p.keyStr ∉ ps.map JSVal.keyStr := by
        intro hmem
        obtain ⟨q, hq, he⟩ := List.mem_map.mp hmem
        obtain ⟨j, hj, rfl⟩ := List.mem_iff_getElem.mp hq
        exact hlater (j + 1) (Nat.succ_lt_succ hj) (Nat.succ_pos j)
          (by simpa using he)
      have hnone : fromEntries (colourEntriesFrom (i0 + 1) ps) p.keyStr = none :=
        fromEntries_eq_none (by rw [map_fst_colourEntriesFrom]; exact hnot)
      simp [colourEntriesFrom, fromEntries, hnone]
    | succ n =>
      have hn : n < ps.length := Nat.lt_of_succ_lt_succ hi
      have hlater2 : ∀ j (hj : j < ps.length), n < j →
          JSVal.keyStr (ps.get ⟨j, hj⟩) ≠ JSVal.keyStr (ps.get ⟨n, hn⟩) := by
        intro j hj hlt
        have := hlater (j + 1) (Nat.succ_lt_succ hj) (Nat.succ_lt_succ hlt)
        simpa using this
      have hrec := ih (i0 + 1) n hn hlater2
      rw [show i0 + (n + 1) = i0 + 1 + n by omega]
      simp only [colourEntriesFrom, fromEntries, List.get_eq_getElem,
        List.getElem_cons_succ]
      rw [show JSVal.keyStr ps[n] = JSVal.keyStr (ps.get ⟨n, hn⟩) from rfl, hrec]

theorem foldl_add_area (l : List (Feature γ π)) (init : Int) :
    l.foldl (fun sum f => sum + f.area_acres.getD 0) init
      = init + (l.map (fun f => f.area_acres.getD 0)).sum := by
  induction l generalizing init with
  | nil => simp
  | cons f t ih =>
    simp only [List.foldl_cons, List.map_cons, List.sum_cons, ih]
    omega

theorem length_filter_mem_cons (p : JSVal) (P : List JSVal) (hp : p ∉ P)
    (fs : List (Feature γ π)) :
    (fs.filter (fun f => decide (f.Project__Name ∈ p :: P))).length
      = (fs.filter (fun f => decide (f.Project__Name = p))).length
        + (fs.filter (fun f => decide (f.Project__Name ∈ P))).length := by
  induction fs with
  | nil => simp
  | cons f t ih =>
    rw [List.filter_cons, List.filter_cons, List.filter_cons]
    by_cases h1 : f.Project__Name = p
    · have h2 : f.Project__Name ∉ P := h1 ▸ hp
      rw [if_pos (by simp [h1]), if_pos (by simp [h1]), if_neg (by simp [h2])]
      simp only [List.length_cons, ih]
      omega
    · by_cases h2 : f.Project__Name ∈ P
      · rw [if_pos (by simp [h2]), if_neg (by simp [h1]), if_pos (by simp [h2])]
        simp only [List.length_cons, ih]
        omega
      · rw [if_neg (by simp [h1, h2]), if_neg (by simp [h1]), if_neg (by simp [h2])]
        exact ih

theorem sum_counts_eq (P : List JSVal) (fs : List (Feature γ π)) (hP : P.Nodup) :
    (P.map (fun pid => (fs.filter (fun f => decide (f.Project__Name = pid))).length)).sum
      = (fs.filter (fun f => decide (f.Project__Name ∈ P))).length := by
  induction P with
  | nil => simp
  | cons p P ih =>
    rw [List.map_cons, List.sum_cons, ih (List.nodup_cons.mp hP).2,
      length_filter_mem_cons p P (List.nodup_cons.mp hP).1 fs]

/-- C1, counterexample: on the specification's four-feature example the code
does not produce distinct projects `["A","B"]` and does not produce exactly
two summaries — the absent `Project__Name` of the fourth feature survives the
`!== null` filter, so a third (undefined) project and summary appear. -/
theorem C1_counterexample :
    project_ids exInput ≠ [JSVal.str "A", JSVal.str "B"]
    ∧ (project_summary exInput).length ≠ 2 := by decide

/-- C1 (amended): on the example input the pipeline yields distinct projects
`["A","B",undefined]`; the colour map sends `"A"` to `palette[0]`, `"B"` to
`palette[1]` and the stringified key `"undefined"` to `palette[2]`; there are
exactly three summaries — the two claimed ones plus
`{name: undefined, count: 1, totalArea: 1, owner: undefined}` to which the
fourth feature contributes; the fourth feature still receives fillColor
`#888888`. -/
theorem C1_pipeline_example :
    project_ids exInput = [JSVal.str "A", JSVal.str "B", JSVal.undef]
    ∧ project_colours exInput "A" = some "#E6C229"
    ∧ project_colours exInput "B" = some "#F17105"
    ∧ project_colours exInput "undefined" = some "#D11149"
    ∧ project_summary exInput =
        [{ name := JSVal.str "A", colour := some "#E6C229", count := 2,
           totalArea := 15, owner := some "X" },
         { name := JSVal.str "B", colour := some "#F17105", count := 1,
           totalArea := 3, owner := some "Z" },
         { name := JSVal.undef, colour := some "#D11149", count := 1,
           totalArea := 1, owner := none }]
    ∧ (processFeatures exInput (project_colours exInput)).map (fun f => f.fillColor)
        = [some "#E6C229", some "#E6C229", some "#F17105", some "#888888"] := by
  decide

/-- C2, counterexample: a feature with an absent `Project__Name` is not
excluded from the extractor's output — the filter `v !== null` keeps
`undefined`, so the output is `[undefined]` rather than the claimed `[]`. -/
theorem C2_counterexample :
    project_ids exUndef = [JSVal.undef] ∧ project_ids exUndef ≠ [] := by decide

/-- C2 (amended): for every collection, `project_ids` has no duplicates, its
entries are exactly the non-`null` `Project__Name` values occurring in the
collection (`undefined` for absent names included), and entries are ordered
by first appearance in the input. -/
theorem C2_extractor_amended (fs : List (Feature γ π)) :
    (project_ids fs).Nodup
    ∧ (∀ v, v ∈ project_ids fs ↔
        v ≠ JSVal.null ∧ v ∈ fs.map (fun f => f.Project__Name))
    ∧ (project_ids fs).Pairwise (fun v w =>
        firstIdx (fs.map (fun f => f.Project__Name)) v
          < firstIdx (fs.map (fun f => f.Project__Name)) w) := by
  refine ⟨nodup_project_ids fs, fun v => mem_project_ids, ?_⟩
  have hpw := pairwise_firstIdx_dedupFirst
    ((fs.map (fun f => f.Project__Name)).filter (fun v => v ≠ JSVal.null))
  simp only [project_ids]
  refine hpw.imp_of_mem (fun {v w} hv hw hlt => ?_)
  have hv2 := mem_dedupFirst.mp hv
  have hw2 := mem_dedupFirst.mp hw
  exact firstIdx_filter_lt (List.mem_filter.mp hv2).1
    (List.mem_filter.mp hv2).2 (List.mem_filter.mp hw2).2 hlt

/-- C2 witness: concrete use of the amended extractor theorem. -/
theorem C2_extractor_amended_witness : JSVal.str "A" ∈ project_ids exInput :=
  ((C2_extractor_amended exInput).2.1 (JSVal.str "A")).mpr (by decide)

/-- C3, counterexample: for a collection with one feature lacking
`Project__Name`, the summary counts sum to `1`, but zero features have a
present, non-null `Project__Name`. -/
theorem C3_counterexample :
    ((project_summary exUndef).map (fun s => s.count)).sum = 1
    ∧ (exUndef.filter (fun f => isPresentNonNull f.Project__Name)).length = 0
    ∧ (1 : Nat) ≠ 0 := by decide

/-- C3 (amended): the sum of `count` over all summaries equals the number of
features whose `Project__Name` is not `null` — features with an absent
(`undefined`) `Project__Name` are counted too, via the undefined summary
record. -/
theorem C3_count_amended (fs : List (Feature γ π)) :
    ((project_summary fs).map (fun s => s.count)).sum
      = (fs.filter (fun f => decide (f.Project__Name ≠ JSVal.null))).length := by
  have h1 : ((project_summary fs).map (fun s => s.count)).sum
      = ((project_ids fs).map (fun pid =>
          (fs.filter (fun f => decide (f.Project__Name = pid))).length)).sum := by
    rw [project_summary, List.map_map]
    rfl
  rw [h1, sum_counts_eq _ _ (nodup_project_ids fs)]
  have h3 : fs.filter (fun f => decide (f.Project__Name ∈ project_ids fs))
      = fs.filter (fun f => decide (f.Project__Name ≠ JSVal.null)) := by
    apply List.filter_congr
    intro f hf
    rw [decide_eq_decide, mem_project_ids]
    constructor
    · exact fun h => h.1
    · exact fun h => ⟨h, List.mem_map_of_mem _ hf⟩
  rw [h3]

/-- C3 witness: on the example input the counts sum to four, the number of
features without an explicitly null `Project__Name`. -/
theorem C3_count_amended_witness :
    ((project_summary exInput).map (fun s => s.count)).sum = 4 := by
  rw [C3_count_amended exInput]
  decide

/-- C4, counterexample: a feature whose `Project__Name` is the empty string —
present and non-null — receives the fallback `#888888` rather than its
colour-map entry `palette[0]`, because the source tests truthiness, not
presence. -/
theorem C4_counterexample :
    project_colours exEmptyStr "" = some "#E6C229"
    ∧ (processFeatures exEmptyStr (project_colours exEmptyStr)).map
        (fun f => f.fillColor) = [some "#888888"]
    ∧ (some "#888888" : Option String) ≠ some "#E6C229" := by decide

/-- C4 (amended): the enricher returns a collection of the same length and
order; feature `i` receives as `fillColor` the colour-map entry of its
`Project__Name` when that value is truthy (present, non-null and non-empty)
and the fallback `#888888` otherwise; `name`, `owner`, `area_acres`,
`Project__Name`, the geometry and the unrecognized properties are unchanged
(the enricher builds new feature records, so the input is not mutated). -/
theorem C4_enricher_amended (fs : List (Feature γ π)) (cmap : String → Option String) :
    (processFeatures fs cmap).length = fs.length
    ∧ ∀ i (h1 : i < fs.length) (h2 : i < (processFeatures fs cmap).length),
        ((processFeatures fs cmap).get ⟨i, h2⟩).fillColor
            = (if (fs.get ⟨i, h1⟩).Project__Name.truthy
               then cmap (JSVal.keyStr (fs.get ⟨i, h1⟩).Project__Name)
               else some "#888888")
        ∧ ((processFeatures fs cmap).get ⟨i, h2⟩).name = (fs.get ⟨i, h1⟩).name
        ∧ ((processFeatures fs cmap).get ⟨i, h2⟩).owner = (fs.get ⟨i, h1⟩).owner
        ∧ ((processFeatures fs cmap).get ⟨i, h2⟩).area_acres
            = (fs.get ⟨i, h1⟩).area_acres
        ∧ ((processFeatures fs cmap).get ⟨i, h2⟩).Project__Name
            = (fs.get ⟨i, h1⟩).Project__Name
        ∧ ((processFeatures fs cmap).get ⟨i, h2⟩).geometry = (fs.get ⟨i, h1⟩).geometry
        ∧ ((processFeatures fs cmap).get ⟨i, h2⟩).extraProps
            = (fs.get ⟨i, h1⟩).extraProps := by
  refine ⟨by simp [processFeatures], ?_⟩
  intro i h1 h2
  simp [processFeatures, enrichFeature, List.get_eq_getElem, List.getElem_map]

/-- C4 witness: feature `3` of the example input (absent `Project__Name`)
receives the fallback colour. -/
theorem C4_enricher_amended_witness :
    ((processFeatures exInput (project_colours exInput)).get ⟨3, by decide⟩).fillColor
      = some "#888888" := by
  have h := ((C4_enricher_amended exInput (project_colours exInput)).2 3
    (by decide) (by decide)).1
  exact h.trans (by decide)

/-- C5, counterexample: in a collection containing a project literally named
`"undefined"` followed by a feature with an absent `Project__Name`, the two
distinct projects stringify to the same object key, the later entry
overwrites the earlier one, and the project at position `0` is mapped to
`palette[1]` instead of `palette[0]`. -/
theorem C5_counterexample :
    project_ids exCollide = [JSVal.str "undefined", JSVal.undef]
    ∧ project_colours exCollide
        (JSVal.keyStr ((project_ids exCollide).get ⟨0, by decide⟩)) = some "#F17105"
    ∧ colours.getD (0 % colours.length) "" = "#E6C229"
    ∧ ("#F17105" : String) ≠ "#E6C229" := by decide

/-- C5 (amended): the colour map sends the stringified key of the project at
position `i` of the distinct-project sequence to `palette[i % 5]`, provided
no later position carries the same stringified key (object keys are strings:
an `undefined` entry stringifies to `"undefined"` and can collide with a
project literally so named, in which case the later entry wins). -/
theorem C5_colour_amended (fs : List (Feature γ π)) (i : Nat)
    (hi : i < (project_ids fs).length)
    (hlater : ∀ j (hj : j < (project_ids fs).length), i < j →
      JSVal.keyStr ((project_ids fs).get ⟨j, hj⟩)
        ≠ JSVal.keyStr ((project_ids fs).get ⟨i, hi⟩)) :
    project_colours fs (JSVal.keyStr ((project_ids fs).get ⟨i, hi⟩))
      = some (colours.getD (i % colours.length) "") := by
  have h := fromEntries_colourEntriesFrom (project_ids fs) 0 i hi hlater
  simpa [project_colours] using h

/-- C5 witness: the first project of the example input receives
`palette[0]`. -/
theorem C5_colour_amended_witness :
    project_colours exInput (JSVal.keyStr ((project_ids exInput).get ⟨0, by decide⟩))
      = some (colours.getD (0 % colours.length) "") :=
  C5_colour_amended exInput 0 (by decide) (by decide)

/-- C6: every summary's `totalArea` is the sum of `area_acres` over exactly
the features whose `Project__Name` is strictly equal to the summary's
project, an absent `area_acres` contributing `0` and negative values included
as-is. -/
theorem C6_totalArea (fs : List (Feature γ π)) (s : ProjectSummary)
    (hs : s ∈ project_summary fs) :
    s.totalArea
      = ((fs.filter (fun f => decide (f.Project__Name = s.name))).map
          (fun f => f.area_acres.getD 0)).sum := by
  simp only [project_summary, List.mem_map] at hs
  obtain ⟨pid, hpid, hs2⟩ := hs
  subst hs2
  simp [foldl_add_area]

/-- C6 witness: the summary of project `"A"` on the example input. -/
theorem C6_totalArea_witness :
    (⟨JSVal.str "A", some "#E6C229", 2, 15, some "X"⟩ : ProjectSummary).totalArea
      = ((exInput.filter (fun f => decide (f.Project__Name =
            (⟨JSVal.str "A", some "#E6C229", 2, 15, some "X"⟩ : ProjectSummary).name))).map
          (fun f => f.area_acres.getD 0)).sum :=
  C6_totalArea exInput _ (by decide)

theorem processFeatures_get (fs : List (Feature γ π)) (cmap : String → Option String)
    (i : Nat) (h1 : i < fs.length) (h2 : i < (processFeatures fs cmap).length) :
    (processFeatures fs cmap).get ⟨i, h2⟩ = enrichFeature cmap (fs.get ⟨i, h1⟩) := by
  simp [processFeatures, List.get_eq_getElem, List.getElem_map]

/-- C7: each enriched feature's description is the fixed-order concatenation
of a bolded name, an owner line, an area line showing the raw `area_acres`
value suffixed `" acres"`, a project segment and a closing tag, where a
missing `name`, `owner` or `area_acres` renders as the literal string
`"undefined"`; and the project segment is present only if `Project__Name` is
present (it is rendered exactly when the value is a nonempty string). -/
theorem C7_description (fs : List (Feature γ π)) (cmap : String → Option String)
    (i : Nat) (h1 : i < fs.length) (h2 : i < (processFeatures fs cmap).length) :
    ((processFeatures fs cmap).get ⟨i, h2⟩).description
      = some ("<strong>"
          ++ (match (fs.get ⟨i, h1⟩).name with
              | none => "undefined"
              | some s => s)
          ++ "</strong>" ++ "<p>Owner: "
          ++ (match (fs.get ⟨i, h1⟩).owner with
              | none => "undefined"
              | some s => s)
          ++ "<br/>Area: "
          ++ (match (fs.get ⟨i, h1⟩).area_acres with
              | none => "undefined"
              | some n => toString n)
          ++ " acres"
          ++ (if (fs.get ⟨i, h1⟩).Project__Name.truthy
              then "<br/>Project: " ++ JSVal.keyStr (fs.get ⟨i, h1⟩).Project__Name
              else "")
          ++ "</p>")
    ∧ ((fs.get ⟨i, h1⟩).Project__Name.truthy = true →
        ∃ s, (fs.get ⟨i, h1⟩).Project__Name = JSVal.str s ∧ s ≠ "") := by
  constructor
  · rw [processFeatures_get fs cmap i h1 h2]
    rfl
  · intro ht
    cases hpn : (fs.get ⟨i, h1⟩).Project__Name with
    | undef => rw [hpn] at ht; simp [JSVal.truthy] at ht
    | null => rw [hpn] at ht; simp [JSVal.truthy] at ht
    | str s =>
      refine ⟨s, rfl, ?_⟩
      rw [hpn] at ht
      simpa [JSVal.truthy] using ht

/-- C7 witness: the description of the example input's first feature. -/
theorem C7_description_witness :
    ((processFeatures exInput (project_colours exInput)).get ⟨0, by decide⟩).description
      = some "<strong>undefined</strong><p>Owner: X<br/>Area: 10 acres<br/>Project: A</p>" := by
  have h := (C7_description exInput (project_colours exInput) 0
    (by decide) (by decide)).1
  exact h.trans (by decide)

/-- C8: running the enricher on its own output again, with the same colour
map, yields identical `fillColor` and `description` fields — the derived
fields depend only on inputs the enricher leaves unchanged. -/
theorem C8_idempotent (fs : List (Feature γ π)) (cmap : String → Option String) :
    (processFeatures (processFeatures fs cmap) cmap).map
        (fun f => (f.fillColor, f.description))
      = (processFeatures fs cmap).map (fun f => (f.fillColor, f.description)) := by
  simp only [processFeatures, List.map_map]
  apply List.map_congr_left
  intro f _
  rfl

/-- C9: the transforms are total Lean functions; on the empty collection the
distinct projects, the summaries and the enriched collection are all empty;
and the colour map built from a collection is defined at (the stringified key
of) every present, non-null `Project__Name` occurring in it, so the
enricher's lookups cannot miss. -/
theorem C9_totality (cmap : String → Option String) :
    project_ids ([] : List (Feature γ π)) = []
    ∧ project_summary ([] : List (Feature γ π)) = []
    ∧ processFeatures ([] : List (Feature γ π)) cmap = []
    ∧ ∀ (fs : List (Feature γ π)) (f : Feature γ π) (s : String),
        f ∈ fs → f.Project__Name = JSVal.str s →
        ∃ c, project_colours fs s = some c := by
  refine ⟨rfl, rfl, rfl, ?_⟩
  intro fs f s hf hpn
  show ∃ c, fromEntries (colourEntriesFrom 0 (project_ids fs)) s = some c
  apply fromEntries_isSome
  rw [map_fst_colourEntriesFrom]
  have hmem : JSVal.str s ∈ project_ids fs := by
    rw [mem_project_ids]
    exact ⟨by simp, hpn ▸ List.mem_map_of_mem _ hf⟩
  have hmem2 := List.mem_map_of_mem JSVal.keyStr hmem
  simpa [JSVal.keyStr] using hmem2

/-- C9 witness: the colour map of the example input is defined at `"A"`. -/
theorem C9_totality_witness : (project_colours exInput "A").isSome = true := by
  obtain ⟨c, hc⟩ := (C9_totality (γ := Unit) (π := Unit) (fun _ => none)).2.2.2
    exInput (mkF none (some "X") (some 10) (JSVal.str "A")) "A" (by decide) rfl
  rw [hc]
  rfl

/-- C10: a feature whose `Project__Name` is the empty string puts the empty
string into the distinct-project list, into the colour map (with a palette
colour) and into a summary record of its own, yet the enricher gives that
feature the fallback colour `#888888` and omits the project line from its
description. -/
theorem C10_empty_string (fs : List (Feature γ π)) (f : Feature γ π)
    (hf : f ∈ fs) (hp : f.Project__Name = JSVal.str "") :
    JSVal.str "" ∈ project_ids fs
    ∧ (∃ c, project_colours fs "" = some c ∧ c ∈ colours)
    ∧ (∃ s, s ∈ project_summary fs ∧ s.name = JSVal.str "")
    ∧ ∀ (cmap : String → Option String) i (h1 : i < fs.length)
        (h2 : i < (processFeatures fs cmap).length),
        (fs.get ⟨i, h1⟩).Project__Name = JSVal.str "" →
        ((processFeatures fs cmap).get ⟨i, h2⟩).fillColor = some "#888888"
        ∧ ((processFeatures fs cmap).get ⟨i, h2⟩).description
            = some ("<strong>" ++ jsDisplay (fs.get ⟨i, h1⟩).name ++ "</strong>"
                ++ "<p>Owner: " ++ jsDisplay (fs.get ⟨i, h1⟩).owner
                ++ "<br/>Area: " ++ jsDisplayInt (fs.get ⟨i, h1⟩).area_acres
                ++ " acres" ++ "</p>") := by
  have hmem : JSVal.str "" ∈ project_ids fs := by
    rw [mem_project_ids]
    exact ⟨by simp, hp ▸ List.mem_map_of_mem _ hf⟩
  refine ⟨hmem, ?_, ?_, ?_⟩
  · have hkey : "" ∈ (colourEntriesFrom 0 (project_ids fs)).map Prod.fst := by
      rw [map_fst_colourEntriesFrom]
      have hmem2 := List.mem_map_of_mem JSVal.keyStr hmem
      simpa [JSVal.keyStr] using hmem2
    obtain ⟨c, hc⟩ := fromEntries_isSome hkey
    exact ⟨c, hc,
      snd_mem_colours_of_mem_colourEntriesFrom (e := ("", c)) (fromEntries_mem hc)⟩
  · exact ⟨_, show _ ∈ project_summary fs from List.mem_map_of_mem _ hmem, rfl⟩
  · intro cmap i h1 h2 hpi
    rw [processFeatures_get fs cmap i h1 h2]
    constructor
    · show (if (fs.get ⟨i, h1⟩).Project__Name.truthy
          then cmap (JSVal.keyStr (fs.get ⟨i, h1⟩).Project__Name)
          else some "#888888") = some "#888888"
      rw [hpi]
      rfl
    · show some (mkDescription (fs.get ⟨i, h1⟩)) = _
      have hpi2 : fs[i].Project__Name = JSVal.str "" := hpi
      simp [mkDescription, hpi2, JSVal.truthy]

/-- C10 witness: the one-feature empty-string collection. -/
theorem C10_empty_string_witness : JSVal.str "" ∈ project_ids exEmptyStr :=
  (C10_empty_string exEmptyStr (mkF none none none (JSVal.str ""))
    (by decide) rfl).1

end Loam
